import Mathlib

/-!
Verification of the rule dependency graph / rule optimizer of the
DatalogTestDriver repository (`rule_optimizer.py`), as a shallow embedding.

A `Predicate` is identified by its identity (name + arity in the source,
abstracted here as a natural-number key, since all the code under study
compares predicates only through `p.id`).  A `Rule` is a head predicate
together with an ordered list of body predicates.  A `Vertex` wraps a rule
with its integer id and two edge sets, exactly as `Vertex.__init__` does.
-/

structure Predicate where
  id : ℕ
  deriving DecidableEq, Repr

structure Rule where
  head : Predicate
  predicates : List Predicate
  deriving DecidableEq, Repr

instance : Inhabited Predicate := ⟨⟨0⟩⟩
instance : Inhabited Rule := ⟨⟨default, []⟩⟩

/-- The list `[p.id for p in rule.predicates]` used by both edge computations. -/
def bodyIds (rule : Rule) : List ℕ := rule.predicates.map Predicate.id

namespace Vertex

/-- Embedding of `Vertex.adjacency` (rule_optimizer.py lines 21–31):
`adjacent = set(); for i, r in enumerate(rules.rules): if r.head.id in
[p.id for p in rule.predicates]: adjacent.add(i); return adjacent`. -/
def adjacency (rule : Rule) (rules : List Rule) : Finset ℕ :=
  rules.enum.foldl
    (fun adjacent ir =>
      if ir.2.head.id ∈ bodyIds rule then insert ir.1 adjacent else adjacent)
    ∅

/-- Embedding of `Vertex.reverse_edges` (rule_optimizer.py lines 33–43):
`reverse = set(); for i, r in enumerate(rules.rules): if rule.head.id in
[p.id for p in r.predicates]: reverse.add(i); return reverse`. -/
def reverse_edges (rule : Rule) (rules : List Rule) : Finset ℕ :=
  rules.enum.foldl
    (fun reverse ir =>
      if rule.head.id ∈ bodyIds ir.2 then insert ir.1 reverse else reverse)
    ∅

end Vertex

/-- Generic membership characterization for the accumulate-over-`enumFrom`
loop shape shared by `adjacency` and `reverse_edges`. -/
theorem mem_foldl_insertIf (p : Rule → Prop) [DecidablePred p] (l : List Rule)
    (n : ℕ) (acc : Finset ℕ) (i : ℕ) :
    i ∈ (l.enumFrom n).foldl
        (fun s ir => if p ir.2 then insert ir.1 s else s) acc ↔
      i ∈ acc ∨ ∃ k r, l.get? k = some r ∧ i = n + k ∧ p r := by
  induction l generalizing n acc with
  | nil => simp [List.enumFrom]
  | cons hd tl ih =>
    simp only [List.enumFrom, List.foldl_cons]
    by_cases hp : p hd
    · rw [if_pos hp, ih]
      simp only [Finset.mem_insert]
      constructor
      · rintro ((rfl | h) | ⟨k, r, hk, hi, hr⟩)
        · exact Or.inr ⟨0, hd, rfl, by omega, hp⟩
        · exact Or.inl h
        · exact Or.inr ⟨k + 1, r, by simpa using hk, by omega, hr⟩
      · rintro (h | ⟨k, r, hk, hi, hr⟩)
        · exact Or.inl (Or.inr h)
        · cases k with
          | zero =>
            simp only [List.get?] at hk
            cases hk
            exact Or.inl (Or.inl (by omega))
          | succ k =>
            exact Or.inr ⟨k, r, by simpa using hk, by omega, hr⟩
    · rw [if_neg hp, ih]
      constructor
      · rintro (h | ⟨k, r, hk, hi, hr⟩)
        · exact Or.inl h
        · exact Or.inr ⟨k + 1, r, by simpa using hk, by omega, hr⟩
      · rintro (h | ⟨k, r, hk, hi, hr⟩)
        · exact Or.inl h
        · cases k with
          | zero =>
            simp only [List.get?] at hk
            cases hk
            exact absurd hr hp
          | succ k =>
            exact Or.inr ⟨k, r, by simpa using hk, by omega, hr⟩

theorem mem_adjacency (rule : Rule) (rules : List Rule) (i : ℕ) :
    i ∈ Vertex.adjacency rule rules ↔
      ∃ r, rules.get? i = some r ∧ r.head.id ∈ bodyIds rule := by
  have h := mem_foldl_insertIf (fun r => r.head.id ∈ bodyIds rule) rules 0
    (∅ : Finset ℕ) i
  simp only [Finset.not_mem_empty, false_or, Nat.zero_add] at h
  constructor
  · intro hm
    obtain ⟨k, r, hk, hik, hr⟩ := h.mp hm
    subst hik
    exact ⟨r, hk, hr⟩
  · rintro ⟨r, hk, hr⟩
    exact h.mpr ⟨i, r, hk, rfl, hr⟩

theorem mem_reverse_edges (rule : Rule) (rules : List Rule) (i : ℕ) :
    i ∈ Vertex.reverse_edges rule rules ↔
      ∃ r, rules.get? i = some r ∧ rule.head.id ∈ bodyIds r := by
  have h := mem_foldl_insertIf (fun r => rule.head.id ∈ bodyIds r) rules 0
    (∅ : Finset ℕ) i
  simp only [Finset.not_mem_empty, false_or, Nat.zero_add] at h
  constructor
  · intro hm
    obtain ⟨k, r, hk, hik, hr⟩ := h.mp hm
    subst hik
    exact ⟨r, hk, hr⟩
  · rintro ⟨r, hk, hr⟩
    exact h.mpr ⟨i, r, hk, rfl, hr⟩

/-- Embedding of the `Vertex` object state: `Vertex.__init__` copies the
rule's head and body (`super().__init__(head=rule.head,
predicates=rule.predicates)`) and stores `id`, `edges` and `reverse`. -/
structure Vertex where
  head : Predicate
  predicates : List Predicate
  id : ℕ
  edges : Finset ℕ
  reverse : Finset ℕ
  deriving DecidableEq

instance : Inhabited Vertex := ⟨⟨default, [], 0, ∅, ∅⟩⟩

/-- Embedding of `Vertex.__init__(rule, index, rules)`
(rule_optimizer.py lines 14–19). -/
def Vertex.ofRule (rule : Rule) (index : ℕ) (rules : List Rule) : Vertex :=
  { head := rule.head
    predicates := rule.predicates
    id := index
    edges := Vertex.adjacency rule rules
    reverse := Vertex.reverse_edges rule rules }

/-- Embedding of `DependencyGraph`: the source stores a dict mapping each
rule's index `i` (for `i, rule in enumerate(rules.rules)`) to
`Vertex(rule, index=i, rules=rules)`; since the keys are exactly
`0 .. N-1`, the dict is represented by the list whose position `i` holds
the vertex stored under key `i`. -/
structure DependencyGraph where
  rules : List Vertex

/-- Embedding of `DependencyGraph.__init__` (rule_optimizer.py lines 50–58). -/
def DependencyGraph.ofRules (rules : List Rule) : DependencyGraph :=
  ⟨rules.enum.map (fun ir => Vertex.ofRule ir.2 ir.1 rules)⟩

theorem DependencyGraph.get?_ofRules (rules : List Rule) (i : ℕ) :
    (DependencyGraph.ofRules rules).rules.get? i
      = (rules.get? i).map (fun r => Vertex.ofRule r i rules) := by
  simp only [DependencyGraph.ofRules, List.get?_map, List.get?_enum,
    Option.map_map]
  cases rules.get? i <;> rfl

theorem DependencyGraph.length_ofRules (rules : List Rule) :
    (DependencyGraph.ofRules rules).rules.length = rules.length := by
  simp [DependencyGraph.ofRules]

/-- Embedding of `Vertex.__str__` (rule_optimizer.py lines 45–46):
the letter R, the vertex id, a colon, then a comma-separated join of
R-prefixed neighbor ids taken from `sorted(self.edges)`. -/
def Vertex.toStr (v : Vertex) : String :=
  "R" ++ Nat.repr v.id ++ ":" ++
    String.intercalate "," ((v.edges.sort (· ≤ ·)).map (fun r => "R" ++ Nat.repr r))

/-- The per-rule lines of `DependencyGraph.__str__`, in the order of the
sorted keys `0 .. N-1`. -/
def DependencyGraph.forwardLines (g : DependencyGraph) : List String :=
  g.rules.map Vertex.toStr

/-- Embedding of `DependencyGraph.__str__` (rule_optimizer.py lines 69–70). -/
def DependencyGraph.toStr (g : DependencyGraph) : String :=
  String.intercalate "\n" g.forwardLines ++ "\n"

/-- One line of the reverse forest, for a vertex `v`: the letter R, the
vertex id, a colon, then a comma-separated join of R-prefixed neighbor ids
taken from `sorted(v.reverse)`. -/
def Vertex.reverseLine (v : Vertex) : String :=
  "R" ++ Nat.repr v.id ++ ":" ++
    String.intercalate "," ((v.reverse.sort (· ≤ ·)).map (fun r => "R" ++ Nat.repr r))

/-- The per-rule lines of `DependencyGraph.reverse`, in the order of the
sorted keys `0 .. N-1`. -/
def DependencyGraph.reverseLines (g : DependencyGraph) : List String :=
  g.rules.map Vertex.reverseLine

/-- Embedding of `DependencyGraph.reverse` (rule_optimizer.py lines 60–67). -/
def DependencyGraph.reverseStr (g : DependencyGraph) : String :=
  String.intercalate "\n" g.reverseLines ++ "\n"

/-- Embedding of `RuleOptimizer.evaluate_optimized_rules`
(rule_optimizer.py lines 85–86): the body is `return ""`. -/
def RuleOptimizer.evaluate_optimized_rules (order : DependencyGraph) : String :=
  ""

/-- Example program `a(X) :- b(X).  b(X) :- c(X).  d(X).` — rule 0's body
references rule 1's head; predicate identities 0, 1, 2, 9. -/
def exampleChain : List Rule := [⟨⟨0⟩, [⟨1⟩]⟩, ⟨⟨1⟩, [⟨2⟩]⟩, ⟨⟨9⟩, []⟩]

/-- A single self-recursive rule `p(X) :- p(X).` (predicate identity 5). -/
def exampleSelf : List Rule := [⟨⟨5⟩, [⟨5⟩]⟩]

/-- Two mutually recursive rules `p(X) :- q(X).  q(X) :- p(X).` -/
def exampleMutual : List Rule := [⟨⟨0⟩, [⟨1⟩]⟩, ⟨⟨1⟩, [⟨0⟩]⟩]

/-- C1: for every list of rules and every vertex of the constructed
dependency graph, the vertex's forward edge set contains exactly the ids `s`
such that rule `s`'s head predicate identity appears among the predicate
identities of the vertex's body: `s` is in the set if and only if rule `s`'s
head identity matches some body predicate identity. -/
theorem forward_edges_exact (rules : List Rule) (i : ℕ) (v : Vertex)
    (hv : (DependencyGraph.ofRules rules).rules.get? i = some v) (s : ℕ) :
    s ∈ v.edges ↔
      ∃ rs, rules.get? s = some rs ∧
        rs.head.id ∈ v.predicates.map Predicate.id := by
  rw [DependencyGraph.get?_ofRules] at hv
  obtain ⟨r, hr, rfl⟩ := Option.map_eq_some'.mp hv
  exact mem_adjacency r rules s

theorem forward_edges_exact_witness :
    1 ∈ (Vertex.ofRule ⟨⟨0⟩, [⟨1⟩]⟩ 0 exampleChain).edges ↔
      ∃ rs, exampleChain.get? 1 = some rs ∧
        rs.head.id ∈ (Vertex.ofRule ⟨⟨0⟩, [⟨1⟩]⟩ 0 exampleChain).predicates.map
          Predicate.id :=
  forward_edges_exact exampleChain 0 (Vertex.ofRule ⟨⟨0⟩, [⟨1⟩]⟩ 0 exampleChain)
    rfl 1

/-- C2: across the whole rule set, forward and reverse edge sets are exact
transposes: `j` is in vertex `i`'s forward edge set if and only if `i` is in
vertex `j`'s reverse edge set. -/
theorem forward_reverse_transpose (rules : List Rule) (i j : ℕ)
    (vi vj : Vertex)
    (hi : (DependencyGraph.ofRules rules).rules.get? i = some vi)
    (hj : (DependencyGraph.ofRules rules).rules.get? j = some vj) :
    j ∈ vi.edges ↔ i ∈ vj.reverse := by
  rw [DependencyGraph.get?_ofRules] at hi hj
  obtain ⟨ri, hri, rfl⟩ := Option.map_eq_some'.mp hi
  obtain ⟨rj, hrj, rfl⟩ := Option.map_eq_some'.mp hj
  show j ∈ Vertex.adjacency ri rules ↔ i ∈ Vertex.reverse_edges rj rules
  rw [mem_adjacency, mem_reverse_edges]
  constructor
  · rintro ⟨r, hr, hmem⟩
    cases Option.some.inj (hr.symm.trans hrj)
    exact ⟨ri, hri, hmem⟩
  · rintro ⟨r, hr, hmem⟩
    cases Option.some.inj (hr.symm.trans hri)
    exact ⟨rj, hrj, hmem⟩

theorem forward_reverse_transpose_witness :
    1 ∈ (Vertex.ofRule ⟨⟨0⟩, [⟨1⟩]⟩ 0 exampleChain).edges ↔
      0 ∈ (Vertex.ofRule ⟨⟨1⟩, [⟨2⟩]⟩ 1 exampleChain).reverse :=
  forward_reverse_transpose exampleChain 0 1
    (Vertex.ofRule ⟨⟨0⟩, [⟨1⟩]⟩ 0 exampleChain)
    (Vertex.ofRule ⟨⟨1⟩, [⟨2⟩]⟩ 1 exampleChain) rfl rfl

/-- C5: `RuleOptimizer.evaluate_optimized_rules` returns the empty string
for every dependency graph, regardless of the program's rules or facts. -/
theorem evaluate_optimized_rules_empty (order : DependencyGraph) :
    RuleOptimizer.evaluate_optimized_rules order = "" := rfl

/-- C3: the graph built for an N-rule program has exactly the keys
`0 .. N-1` (one vertex per rule, and the vertex stored under key `i` has id
`i`), every id occurring in any vertex's forward or reverse edge set lies in
`[0, N)` and is therefore itself a key; self-edges are permitted, as
witnessed by the self-recursive one-rule program `exampleSelf`, whose only
vertex carries its own id in both edge sets. -/
theorem graph_keys_and_edge_range (rules : List Rule) :
    (DependencyGraph.ofRules rules).rules.length = rules.length ∧
    (∀ i v, (DependencyGraph.ofRules rules).rules.get? i = some v →
      v.id = i ∧ v.edges ⊆ Finset.range rules.length ∧
        v.reverse ⊆ Finset.range rules.length) ∧
    (0 ∈ ((DependencyGraph.ofRules exampleSelf).rules.getD 0 default).edges ∧
      0 ∈ ((DependencyGraph.ofRules exampleSelf).rules.getD 0 default).reverse) := by
  refine ⟨DependencyGraph.length_ofRules rules, ?_, by decide, by decide⟩
  intro i v hv
  rw [DependencyGraph.get?_ofRules] at hv
  obtain ⟨r, hr, rfl⟩ := Option.map_eq_some'.mp hv
  refine ⟨rfl, ?_, ?_⟩
  · intro s hs
    obtain ⟨rs, hrs, -⟩ := (mem_adjacency r rules s).mp hs
    rw [Finset.mem_range]
    exact List.get?_eq_some.mp hrs |>.1
  · intro s hs
    obtain ⟨rs, hrs, -⟩ := (mem_reverse_edges r rules s).mp hs
    rw [Finset.mem_range]
    exact List.get?_eq_some.mp hrs |>.1

theorem graph_keys_and_edge_range_witness :
    (Vertex.ofRule ⟨⟨5⟩, [⟨5⟩]⟩ 0 exampleSelf).id = 0 ∧
      (Vertex.ofRule ⟨⟨5⟩, [⟨5⟩]⟩ 0 exampleSelf).edges ⊆ Finset.range 1 ∧
      (Vertex.ofRule ⟨⟨5⟩, [⟨5⟩]⟩ 0 exampleSelf).reverse ⊆ Finset.range 1 :=
  (graph_keys_and_edge_range exampleSelf).2.1 0
    (Vertex.ofRule ⟨⟨5⟩, [⟨5⟩]⟩ 0 exampleSelf) rfl

/-- C4: each textual listing of the dependency graph has one line per rule
id, in ascending id order: the line at position `i` is the letter R, the
decimal id `i`, a colon, then the comma-separated R-prefixed neighbor ids
sorted ascending (the sort keys are sorted, `Finset.sort_sorted`); and for
`exampleChain`, where rule 0's body references rule 1's head, the forward
listing contains the line R0:R1 and the reverse listing contains R1:R0. -/
theorem rendering_lines (rules : List Rule) :
    (DependencyGraph.ofRules rules).forwardLines.length = rules.length ∧
    (DependencyGraph.ofRules rules).reverseLines.length = rules.length ∧
    (∀ i v, (DependencyGraph.ofRules rules).rules.get? i = some v →
      (DependencyGraph.ofRules rules).forwardLines.get? i
          = some ("R" ++ Nat.repr i ++ ":" ++ String.intercalate ","
              ((v.edges.sort (· ≤ ·)).map (fun r => "R" ++ Nat.repr r))) ∧
      (DependencyGraph.ofRules rules).reverseLines.get? i
          = some ("R" ++ Nat.repr i ++ ":" ++ String.intercalate ","
              ((v.reverse.sort (· ≤ ·)).map (fun r => "R" ++ Nat.repr r))) ∧
      List.Sorted (· ≤ ·) (v.edges.sort (· ≤ ·)) ∧
      List.Sorted (· ≤ ·) (v.reverse.sort (· ≤ ·))) ∧
    ("R0:R1" ∈ (DependencyGraph.ofRules exampleChain).forwardLines ∧
      "R1:R0" ∈ (DependencyGraph.ofRules exampleChain).reverseLines) := by
  have hfwd : Vertex.toStr (Vertex.ofRule ⟨⟨0⟩, [⟨1⟩]⟩ 0 exampleChain)
      = "R0:R1" := by
    have e0 : (Vertex.ofRule ⟨⟨0⟩, [⟨1⟩]⟩ 0 exampleChain).edges = {1} := by
      decide
    rw [Vertex.toStr, e0, Finset.sort_singleton]
    rfl
  have hrev : Vertex.reverseLine (Vertex.ofRule ⟨⟨1⟩, [⟨2⟩]⟩ 1 exampleChain)
      = "R1:R0" := by
    have e1 : (Vertex.ofRule ⟨⟨1⟩, [⟨2⟩]⟩ 1 exampleChain).reverse = {0} := by
      decide
    rw [Vertex.reverseLine, e1, Finset.sort_singleton]
    rfl
  have hflist : (DependencyGraph.ofRules exampleChain).forwardLines
      = [Vertex.toStr (Vertex.ofRule ⟨⟨0⟩, [⟨1⟩]⟩ 0 exampleChain),
         Vertex.toStr (Vertex.ofRule ⟨⟨1⟩, [⟨2⟩]⟩ 1 exampleChain),
         Vertex.toStr (Vertex.ofRule ⟨⟨9⟩, []⟩ 2 exampleChain)] := rfl
  have hrlist : (DependencyGraph.ofRules exampleChain).reverseLines
      = [Vertex.reverseLine (Vertex.ofRule ⟨⟨0⟩, [⟨1⟩]⟩ 0 exampleChain),
         Vertex.reverseLine (Vertex.ofRule ⟨⟨1⟩, [⟨2⟩]⟩ 1 exampleChain),
         Vertex.reverseLine (Vertex.ofRule ⟨⟨9⟩, []⟩ 2 exampleChain)] := rfl
  refine ⟨?_, ?_, ?_, ?_, ?_⟩
  · simp [DependencyGraph.forwardLines, DependencyGraph.ofRules]
  · simp [DependencyGraph.reverseLines, DependencyGraph.ofRules]
  · intro i v hv
    have hid : v.id = i := by
      rw [DependencyGraph.get?_ofRules] at hv
      obtain ⟨r, hr, rfl⟩ := Option.map_eq_some'.mp hv
      rfl
    refine ⟨?_, ?_, Finset.sort_sorted _ _, Finset.sort_sorted _ _⟩
    · simp only [DependencyGraph.forwardLines, List.get?_map, hv,
        Option.map_some']
      rw [Vertex.toStr, hid]
    · simp only [DependencyGraph.reverseLines, List.get?_map, hv,
        Option.map_some']
      rw [Vertex.reverseLine, hid]
  · rw [hflist, hfwd]
    exact List.mem_cons_self _ _
  · rw [hrlist, hrev]
    exact List.mem_cons_of_mem _ (List.mem_cons_self _ _)

theorem rendering_lines_witness :
    (DependencyGraph.ofRules exampleChain).forwardLines.get? 0
        = some ("R" ++ Nat.repr 0 ++ ":" ++ String.intercalate ","
            (((Vertex.ofRule ⟨⟨0⟩, [⟨1⟩]⟩ 0 exampleChain).edges.sort
              (· ≤ ·)).map (fun r => "R" ++ Nat.repr r))) ∧
      (DependencyGraph.ofRules exampleChain).reverseLines.get? 0
        = some ("R" ++ Nat.repr 0 ++ ":" ++ String.intercalate ","
            (((Vertex.ofRule ⟨⟨0⟩, [⟨1⟩]⟩ 0 exampleChain).reverse.sort
              (· ≤ ·)).map (fun r => "R" ++ Nat.repr r))) :=
  let h := (rendering_lines exampleChain).2.2.1 0
    (Vertex.ofRule ⟨⟨0⟩, [⟨1⟩]⟩ 0 exampleChain) rfl
  ⟨h.1, h.2.1⟩

/-- C8: a body predicate whose identity matches no rule head in the program
(a base/extensional predicate) contributes no edge: graph construction is
total (one vertex per rule regardless), dropping the predicate from a
rule's body leaves that rule's forward edge set unchanged, and dropping it
from every body leaves every program rule's reverse edge set unchanged. -/
theorem base_predicate_no_edge (rules : List Rule) (p : Predicate)
    (hp : ∀ s ∈ rules, s.head.id ≠ p.id) :
    (DependencyGraph.ofRules rules).rules.length = rules.length ∧
    (∀ r : Rule,
      Vertex.adjacency
          ⟨r.head, r.predicates.filter (fun q => q.id ≠ p.id)⟩ rules
        = Vertex.adjacency r rules) ∧
    (∀ s ∈ rules,
      Vertex.reverse_edges s
          (rules.map
            (fun t => ⟨t.head, t.predicates.filter (fun q => q.id ≠ p.id)⟩))
        = Vertex.reverse_edges s rules) := by
  refine ⟨DependencyGraph.length_ofRules rules, ?_, ?_⟩
  · intro r
    ext i
    rw [mem_adjacency, mem_adjacency]
    constructor
    · rintro ⟨rs, hrs, hmem⟩
      refine ⟨rs, hrs, ?_⟩
      simp only [bodyIds, List.mem_map, List.mem_filter] at hmem ⊢
      obtain ⟨q, ⟨hq, -⟩, hqe⟩ := hmem
      exact ⟨q, hq, hqe⟩
    · rintro ⟨rs, hrs, hmem⟩
      refine ⟨rs, hrs, ?_⟩
      have hne : rs.head.id ≠ p.id := hp rs (List.get?_mem hrs)
      simp only [bodyIds, List.mem_map, List.mem_filter] at hmem ⊢
      obtain ⟨q, hq, hqe⟩ := hmem
      exact ⟨q, ⟨hq, by simpa [hqe] using hne⟩, hqe⟩
  · intro s hs
    have hsne : s.head.id ≠ p.id := hp s hs
    ext i
    rw [mem_reverse_edges, mem_reverse_edges]
    constructor
    · rintro ⟨rs, hrs, hmem⟩
      rw [List.get?_map] at hrs
      obtain ⟨t, ht, rfl⟩ := Option.map_eq_some'.mp hrs
      refine ⟨t, ht, ?_⟩
      simp only [bodyIds, List.mem_map, List.mem_filter] at hmem ⊢
      obtain ⟨q, ⟨hq, -⟩, hqe⟩ := hmem
      exact ⟨q, hq, hqe⟩
    · rintro ⟨rs, hrs, hmem⟩
      refine ⟨⟨rs.head, rs.predicates.filter (fun q => q.id ≠ p.id)⟩,
        by rw [List.get?_map, hrs]; rfl, ?_⟩
      simp only [bodyIds, List.mem_map, List.mem_filter] at hmem ⊢
      obtain ⟨q, hq, hqe⟩ := hmem
      exact ⟨q, ⟨hq, by simpa [hqe] using hsne⟩, hqe⟩

theorem base_predicate_no_edge_witness :
    Vertex.adjacency
        ⟨(⟨1⟩ : Predicate),
          ([(⟨2⟩ : Predicate)]).filter
            (fun q => q.id ≠ (⟨2⟩ : Predicate).id)⟩ exampleChain
      = Vertex.adjacency ⟨⟨1⟩, [⟨2⟩]⟩ exampleChain :=
  (base_predicate_no_edge exampleChain ⟨2⟩ (by decide)).2.1 ⟨⟨1⟩, [⟨2⟩]⟩

/-- State-passing embedding of the `DependencyGraph` construction's effect
on its input: `DependencyGraph.__init__` and `Vertex.__init__` only read
`rules` (each vertex copies `rule.head` and `rule.predicates`; no statement
assigns into a rule or into the list), so the embedding returns the rules
object exactly as the constructor leaves it. -/
def DependencyGraph.buildWithInput (rules : List Rule) :
    DependencyGraph × List Rule :=
  (DependencyGraph.ofRules rules, rules)

/-- C9: constructing the dependency graph has no side effect on its input:
the rule list after construction is the input list (same rules, same
order), and each vertex carries an identical copy of its rule's head and
body predicates. -/
theorem graph_construction_pure (rules : List Rule) :
    (DependencyGraph.buildWithInput rules).2 = rules ∧
    (∀ i v, (DependencyGraph.buildWithInput rules).1.rules.get? i = some v →
      ∃ r, rules.get? i = some r ∧ v.head = r.head ∧
        v.predicates = r.predicates) := by
  refine ⟨rfl, ?_⟩
  intro i v hv
  have hv' : (DependencyGraph.ofRules rules).rules.get? i = some v := hv
  rw [DependencyGraph.get?_ofRules] at hv'
  obtain ⟨r, hr, rfl⟩ := Option.map_eq_some'.mp hv'
  exact ⟨r, hr, rfl, rfl⟩

theorem graph_construction_pure_witness :
    ∃ r, exampleSelf.get? 0 = some r ∧
      (Vertex.ofRule ⟨⟨5⟩, [⟨5⟩]⟩ 0 exampleSelf).head = r.head ∧
      (Vertex.ofRule ⟨⟨5⟩, [⟨5⟩]⟩ 0 exampleSelf).predicates = r.predicates :=
  (graph_construction_pure exampleSelf).2 0
    (Vertex.ofRule ⟨⟨5⟩, [⟨5⟩]⟩ 0 exampleSelf) rfl

/-- Events observable during `RuleOptimizer.__init__`: the completion of
`evaluate_optimized_rules`, and one event per `evaluate_query` invocation. -/
inductive QueryEvent (Q : Type) where
  | rulesEvaluated : QueryEvent Q
  | queryEvaluated : Q → QueryEvent Q
  deriving DecidableEq

/-- Embedding of the query loop of `RuleOptimizer.__init__`
(rule_optimizer.py lines 81–83): for each query in sequence, store
`evaluate_query(query)` in the rdbms dict under that query (a later
assignment to the same key overwrites an earlier one, as in a dict), and
record the invocation as an event.  `evaluate_query` itself is an external
capability of `DatalogInterpreter` and is passed in abstractly. -/
def queryLoop {Q R : Type} [DecidableEq Q] (evaluate_query : Q → R) :
    List Q → List (QueryEvent Q) → (Q → Option R) →
      List (QueryEvent Q) × (Q → Option R)
  | [], trace, rdbms => (trace, rdbms)
  | q :: qs, trace, rdbms =>
      queryLoop evaluate_query qs (trace ++ [QueryEvent.queryEvaluated q])
        (fun x => if x = q then some (evaluate_query q) else rdbms x)

/-- Embedding of `RuleOptimizer.__init__` (rule_optimizer.py lines 74–83):
build the dependency graph, compute `rule_evaluation =
evaluate_optimized_rules(...)`, then run the query loop over the program's
query sequence. -/
def RuleOptimizer.initRun {Q R : Type} [DecidableEq Q] (rules : List Rule)
    (queries : List Q) (evaluate_query : Q → R) :
    List (QueryEvent Q) × (Q → Option R) :=
  let dependency_graph := DependencyGraph.ofRules rules
  let rule_evaluation :=
    RuleOptimizer.evaluate_optimized_rules dependency_graph
  let _ := rule_evaluation
  queryLoop evaluate_query queries [QueryEvent.rulesEvaluated] (fun _ => none)

theorem queryLoop_trace {Q R : Type} [DecidableEq Q] (ev : Q → R)
    (qs : List Q) (t : List (QueryEvent Q)) (m : Q → Option R) :
    (queryLoop ev qs t m).1 = t ++ qs.map QueryEvent.queryEvaluated := by
  induction qs generalizing t m with
  | nil => simp [queryLoop]
  | cons q qs ih => simp [queryLoop, ih]

theorem queryLoop_lookup {Q R : Type} [DecidableEq Q] (ev : Q → R)
    (qs : List Q) (t : List (QueryEvent Q)) (m : Q → Option R) (x : Q)
    (hx : x ∈ qs ∨ m x = some (ev x)) :
    (queryLoop ev qs t m).2 x = some (ev x) := by
  induction qs generalizing t m with
  | nil =>
    rcases hx with hx | hx
    · exact absurd hx (List.not_mem_nil x)
    · exact hx
  | cons q qs ih =>
    rw [queryLoop]
    apply ih
    rcases hx with hx | hx
    · rcases List.mem_cons.mp hx with rfl | hx
      · by_cases hq : x ∈ qs
        · exact Or.inl hq
        · right
          simp
      · exact Or.inl hx
    · by_cases hq : x = q
      · subst hq
        right
        simp
      · right
        simpa [hq] using hx

/-- C7: every query in the program's query sequence is evaluated exactly
once via `evaluate_query` (the trace holds exactly one `queryEvaluated`
event per occurrence in the sequence, in order), every such invocation
happens strictly after `evaluate_optimized_rules` has completed (the
`rulesEvaluated` event sits at position 0 and every other event sits at a
later position), and the result store maps each query of the sequence to
its `evaluate_query` result. -/
theorem queries_once_after_rules {Q R : Type} [DecidableEq Q]
    (rules : List Rule) (queries : List Q) (evaluate_query : Q → R) :
    (RuleOptimizer.initRun rules queries evaluate_query).1
        = QueryEvent.rulesEvaluated ::
            queries.map QueryEvent.queryEvaluated ∧
    (∀ q : Q,
      ((RuleOptimizer.initRun rules queries evaluate_query).1.countP
          (fun e => e = QueryEvent.queryEvaluated q))
        = queries.countP (fun x => x = q)) ∧
    (∀ k (hk : k < (RuleOptimizer.initRun rules queries evaluate_query).1.length),
      (RuleOptimizer.initRun rules queries evaluate_query).1.get ⟨k, hk⟩
          ≠ QueryEvent.rulesEvaluated → 0 < k) ∧
    (∀ q ∈ queries,
      (RuleOptimizer.initRun rules queries evaluate_query).2 q
        = some (evaluate_query q)) := by
  have htrace : (RuleOptimizer.initRun rules queries evaluate_query).1
      = QueryEvent.rulesEvaluated :: queries.map QueryEvent.queryEvaluated := by
    show (queryLoop evaluate_query queries [QueryEvent.rulesEvaluated]
        (fun _ => none)).1 = _
    rw [queryLoop_trace]
    rfl
  refine ⟨htrace, ?_, ?_, ?_⟩
  · intro q
    rw [htrace]
    rw [List.countP_cons_of_neg, List.countP_map]
    · apply List.countP_congr
      intro x hx
      simp
    · simp
  · intro k hk hne
    rcases k with _ | k
    · exact absurd (List.get_of_eq htrace ⟨0, hk⟩) hne
    · exact Nat.succ_pos k
  · intro q hq
    exact queryLoop_lookup evaluate_query queries _ _ q (Or.inl hq)

theorem queries_once_after_rules_witness :
    (RuleOptimizer.initRun (Q := ℕ) (R := ℕ) exampleSelf [7]
        (fun q => q + 1)).2 7 = some 8 :=
  (queries_once_after_rules exampleSelf [7] (fun q => q + 1)).2.2.2 7
    (List.mem_singleton.mpr rfl)

/-- Modelled from the spec: the `DatalogInterpreter` constructor
(datalog_interpreter.py, a file of this repository that is not under src/)
initializes the fact store from the program's parsed base facts — the spec
describes the fact store as "initialized from parsed base facts", growing
monotonically only "as rules fire" — and the `least_fix_point` flag selects
whether the constructor immediately iterates rule evaluation to a least
fixpoint; with the flag false no rule fires during construction, so the
store stays exactly the base facts. -/
def DatalogInterpreter.initStore {F : Type} (baseFacts : F)
    (leastFixPointEval : F → F) (least_fix_point : Bool) : F :=
  if least_fix_point then leastFixPointEval baseFacts else baseFacts

/-- The fact store visible to query evaluation in `RuleOptimizer.__init__`:
the store produced by `super().__init__(datalog_program,
least_fix_point=False)` (rule_optimizer.py line 75), left untouched by
`evaluate_optimized_rules`, whose body returns the empty string without
reading or writing any facts (lines 85–86). -/
def RuleOptimizer.storeAtQueryTime {F : Type} (baseFacts : F)
    (leastFixPointEval : F → F) (rules : List Rule) : F :=
  let store := DatalogInterpreter.initStore baseFacts leastFixPointEval false
  let rule_evaluation :=
    RuleOptimizer.evaluate_optimized_rules (DependencyGraph.ofRules rules)
  let _ := rule_evaluation
  store

/-- C10: `RuleOptimizer` performs no rule evaluation before answering
queries: for every program and every fixpoint evaluator, the fact store at
query-evaluation time is exactly the base (extensional) fact store, with no
derived facts. -/
theorem no_derived_facts_at_query_time {F : Type} (baseFacts : F)
    (leastFixPointEval : F → F) (rules : List Rule) :
    RuleOptimizer.storeAtQueryTime baseFacts leastFixPointEval rules
      = baseFacts := rfl

/-!
Stratifier (modelled from the spec).  The stratifier described in spec
section 4.2 is not implemented anywhere under src/ (the source's
`evaluate_optimized_rules` is an unimplemented stub), so the definitions
below model it from the spec's words: partition the graph's rule ids into
strongly-connected components, using the forward edge sets already present
on each vertex, and return the groups in a topological order of the
condensation.  The concrete order chosen here lists components by ascending
cardinality of their forward-reachable set (dependencies of a component are
reachable from it, so they always have strictly smaller reachable sets and
come first), with ties broken by lowest member id.
-/

/-- Forward dependency edge between rule ids, read off the vertices'
forward edge sets: rule `i` depends on rule `j` when `j` lies in the edge
set that `Vertex.adjacency` computes for rule `i` (which is exactly
`(DependencyGraph.ofRules rules)` vertex `i`'s `edges` field). -/
def ruleEdge (rules : List Rule) (i j : ℕ) : Prop :=
  j ∈ Vertex.adjacency (rules.getD i default) rules

instance ruleEdgeDec (rules : List Rule) (i j : ℕ) :
    Decidable (ruleEdge rules i j) :=
  inferInstanceAs
    (Decidable (j ∈ Vertex.adjacency (rules.getD i default) rules))

theorem ruleEdge_lt (rules : List Rule) (i j : ℕ)
    (h : ruleEdge rules i j) : j < rules.length := by
  obtain ⟨r, hr, -⟩ := (mem_adjacency _ rules j).mp h
  exact (List.get?_eq_some.mp hr).1

theorem ruleEdge_of_ge (rules : List Rule) (i j : ℕ)
    (h : rules.length ≤ i) : ¬ ruleEdge rules i j := by
  intro he
  obtain ⟨r, -, hmem⟩ := (mem_adjacency _ rules j).mp he
  rw [List.getD_eq_default _ _ h] at hmem
  simp [bodyIds, Inhabited.default] at hmem

/-- One breadth step of forward reachability over the rule ids. -/
def stepR (rules : List Rule) (S : Finset ℕ) : Finset ℕ :=
  S ∪ (Finset.range rules.length).filter
    (fun j => ∃ k ∈ S, ruleEdge rules k j)

/-- The ids forward-reachable from `i` (including `i` itself), obtained by
iterating `stepR` once per rule: any reachable id is reached by a path of
fewer than `rules.length` edges once the iteration has stabilized. -/
def reachSet (rules : List Rule) (i : ℕ) : Finset ℕ :=
  (stepR rules)^[rules.length] {i}

theorem subset_stepR (rules : List Rule) (S : Finset ℕ) :
    S ⊆ stepR rules S :=
  Finset.subset_union_left

theorem stepR_mono (rules : List Rule) {S T : Finset ℕ} (h : S ⊆ T) :
    stepR rules S ⊆ stepR rules T := by
  intro j hj
  rcases Finset.mem_union.mp hj with hj | hj
  · exact Finset.mem_union_left _ (h hj)
  · refine Finset.mem_union_right _ ?_
    rw [Finset.mem_filter] at hj ⊢
    obtain ⟨hr, k, hk, he⟩ := hj
    exact ⟨hr, k, h hk, he⟩

theorem iterate_stepR_succ (rules : List Rule) (S : Finset ℕ) (n : ℕ) :
    (stepR rules)^[n] S ⊆ (stepR rules)^[n + 1] S := by
  rw [Function.iterate_succ_apply']
  exact subset_stepR rules _

theorem iterate_stepR_le (rules : List Rule) (S : Finset ℕ) {m n : ℕ}
    (h : m ≤ n) : (stepR rules)^[m] S ⊆ (stepR rules)^[n] S := by
  induction n with
  | zero =>
    cases Nat.le_zero.mp h
    exact subset_rfl
  | succ n ih =>
    rcases Nat.lt_or_ge m (n + 1) with hm | hm
    · exact (ih (Nat.lt_succ_iff.mp hm)).trans (iterate_stepR_succ rules S n)
    · cases Nat.le_antisymm h hm
      exact subset_rfl

theorem iterate_stepR_subset_range (rules : List Rule) {i : ℕ}
    (hi : i < rules.length) (n : ℕ) :
    (stepR rules)^[n] {i} ⊆ Finset.range rules.length := by
  induction n with
  | zero =>
    intro j hj
    simp only [Function.iterate_zero, id_eq, Finset.mem_singleton] at hj
    subst hj
    exact Finset.mem_range.mpr hi
  | succ n ih =>
    rw [Function.iterate_succ_apply']
    intro j hj
    rcases Finset.mem_union.mp hj with hj | hj
    · exact ih hj
    · exact (Finset.mem_filter.mp hj).1

theorem iterate_stepR_card (rules : List Rule) (i : ℕ) {n : ℕ}
    (h : ∀ m < n, (stepR rules)^[m] {i} ≠ (stepR rules)^[m + 1] {i}) :
    n + 1 ≤ ((stepR rules)^[n] {i}).card := by
  induction n with
  | zero => simp
  | succ n ih =>
    have hsub : (stepR rules)^[n] {i} ⊂ (stepR rules)^[n + 1] {i} :=
      Finset.ssubset_iff_subset_ne.mpr
        ⟨iterate_stepR_succ rules _ n, h n (Nat.lt_succ_self n)⟩
    have := Finset.card_lt_card hsub
    have := ih (fun m hm => h m (Nat.lt_succ_of_lt hm))
    omega

theorem stepR_reachSet (rules : List Rule) (i : ℕ) :
    stepR rules (reachSet rules i) = reachSet rules i := by
  rcases Nat.lt_or_ge i rules.length with hi | hi
  · -- a consecutive pair among the first `length` iterates must coincide,
    -- since the cards otherwise exceed the size of the range
    have hex : ∃ n < rules.length,
        (stepR rules)^[n] {i} = (stepR rules)^[n + 1] {i} := by
      by_contra hall
      push_neg at hall
      have hcard := iterate_stepR_card rules i (n := rules.length) hall
      have hle : ((stepR rules)^[rules.length] {i}).card ≤ rules.length :=
        le_trans (Finset.card_le_card
            (iterate_stepR_subset_range rules hi rules.length))
          (by rw [Finset.card_range])
      omega
    obtain ⟨n, hn, heq⟩ := hex
    have hstable : ∀ m, n ≤ m →
        (stepR rules)^[m] {i} = (stepR rules)^[n] {i} := by
      intro m hm
      induction m, hm using Nat.le_induction with
      | base => rfl
      | succ m hm ih =>
        have hs : (stepR rules)^[m + 1] {i}
            = stepR rules ((stepR rules)^[m] {i}) :=
          Function.iterate_succ_apply' _ _ _
        have hs' : (stepR rules)^[n + 1] {i}
            = stepR rules ((stepR rules)^[n] {i}) :=
          Function.iterate_succ_apply' _ _ _
        rw [hs, ih, ← hs', ← heq]
    show stepR rules ((stepR rules)^[rules.length] {i})
        = (stepR rules)^[rules.length] {i}
    have hs : (stepR rules)^[rules.length + 1] {i}
        = stepR rules ((stepR rules)^[rules.length] {i}) :=
      Function.iterate_succ_apply' _ _ _
    rw [← hs, hstable (rules.length + 1) (by omega),
      hstable rules.length (Nat.le_of_lt hn)]
  · -- out of range: no edges leave `i`, the singleton is already fixed
    have hfix : stepR rules {i} = {i} := by
      rw [stepR]
      have : (Finset.range rules.length).filter
          (fun j => ∃ k ∈ ({i} : Finset ℕ), ruleEdge rules k j) = ∅ := by
        rw [Finset.filter_eq_empty_iff]
        rintro j -
        rintro ⟨k, hk, he⟩
        rw [Finset.mem_singleton] at hk
        subst hk
        exact ruleEdge_of_ge rules k j hi he
      rw [this, Finset.union_empty]
    show stepR rules ((stepR rules)^[rules.length] {i})
        = (stepR rules)^[rules.length] {i}
    rw [Function.iterate_fixed hfix, hfix]

theorem mem_reachSet_self (rules : List Rule) (i : ℕ) :
    i ∈ reachSet rules i :=
  iterate_stepR_le rules {i} (Nat.zero_le rules.length)
    (by simp only [Function.iterate_zero, id_eq, Finset.mem_singleton])

theorem reachSet_closed (rules : List Rule) {i k j : ℕ}
    (hk : k ∈ reachSet rules i) (he : ruleEdge rules k j) :
    j ∈ reachSet rules i := by
  rw [← stepR_reachSet rules i]
  refine Finset.mem_union_right _ (Finset.mem_filter.mpr ?_)
  exact ⟨Finset.mem_range.mpr (ruleEdge_lt rules k j he), k, hk, he⟩

theorem reachSet_minimal (rules : List Rule) {i : ℕ} {T : Finset ℕ}
    (hi : i ∈ T)
    (hT : ∀ k j, k ∈ T → ruleEdge rules k j → j ∈ T) :
    reachSet rules i ⊆ T := by
  have : ∀ n, (stepR rules)^[n] {i} ⊆ T := by
    intro n
    induction n with
    | zero =>
      intro j hj
      simp only [Function.iterate_zero, id_eq, Finset.mem_singleton] at hj
      subst hj
      exact hi
    | succ n ih =>
      have hs : (stepR rules)^[n + 1] {i}
          = stepR rules ((stepR rules)^[n] {i}) :=
        Function.iterate_succ_apply' _ _ _
      rw [hs]
      intro j hj
      rcases Finset.mem_union.mp hj with hj | hj
      · exact ih hj
      · obtain ⟨-, k, hk, he⟩ := Finset.mem_filter.mp hj
        exact hT k j (ih hk) he
  exact this rules.length

theorem reachSet_trans (rules : List Rule) {i j : ℕ}
    (hj : j ∈ reachSet rules i) :
    reachSet rules j ⊆ reachSet rules i :=
  reachSet_minimal rules hj (fun _ _ hk he => reachSet_closed rules hk he)

theorem reachSet_subset_range (rules : List Rule) {i : ℕ}
    (hi : i < rules.length) :
    reachSet rules i ⊆ Finset.range rules.length :=
  iterate_stepR_subset_range rules hi rules.length

/-- The strongly-connected component of rule id `i`: the ids reachable
from `i` from which `i` is reachable back. -/
def groupOf (rules : List Rule) (i : ℕ) : Finset ℕ :=
  (reachSet rules i).filter (fun j => i ∈ reachSet rules j)

theorem mem_groupOf (rules : List Rule) (i j : ℕ) :
    j ∈ groupOf rules i ↔
      j ∈ reachSet rules i ∧ i ∈ reachSet rules j :=
  Finset.mem_filter

theorem self_mem_groupOf (rules : List Rule) (i : ℕ) :
    i ∈ groupOf rules i :=
  (mem_groupOf rules i i).mpr
    ⟨mem_reachSet_self rules i, mem_reachSet_self rules i⟩

theorem groupOf_congr (rules : List Rule) {i j : ℕ}
    (hji : j ∈ reachSet rules i) (hij : i ∈ reachSet rules j) :
    groupOf rules i = groupOf rules j := by
  ext z
  rw [mem_groupOf, mem_groupOf]
  constructor
  · rintro ⟨hzi, hiz⟩
    exact ⟨reachSet_trans rules hij hzi, reachSet_trans rules hiz hji⟩
  · rintro ⟨hzj, hjz⟩
    exact ⟨reachSet_trans rules hji hzj, reachSet_trans rules hjz hij⟩

theorem groupOf_subset_range (rules : List Rule) {i : ℕ}
    (hi : i < rules.length) :
    groupOf rules i ⊆ Finset.range rules.length :=
  (Finset.filter_subset _ _).trans (reachSet_subset_range rules hi)

/-- A rule id represents its component when it is the component's least
member (the spec's deterministic tie-break prefers lowest ids). -/
def isRep (rules : List Rule) (i : ℕ) : Prop :=
  ∀ j ∈ groupOf rules i, i ≤ j

instance isRepDec (rules : List Rule) (i : ℕ) : Decidable (isRep rules i) :=
  inferInstanceAs (Decidable (∀ j ∈ groupOf rules i, i ≤ j))

/-- The component representatives, listed in the order their components
are to be evaluated: ascending cardinality of their forward-reachable
sets (so a component's dependencies always come first), ties broken by
lowest rule id. -/
def orderedReps (rules : List Rule) : List ℕ :=
  (List.range (rules.length + 1)).flatMap
    (fun c => (List.range rules.length).filter
      (fun i => decide (isRep rules i) && decide ((reachSet rules i).card = c)))

/-- Modelled from the spec (section 4.2): the stratifier, absent from
src/, partitions the rule ids of the dependency graph into
strongly-connected components and returns them so that a group never
precedes a group it depends on. -/
def stratify (rules : List Rule) : List (Finset ℕ) :=
  (orderedReps rules).map (groupOf rules)

theorem mem_orderedReps (rules : List Rule) (i : ℕ) :
    i ∈ orderedReps rules ↔ i < rules.length ∧ isRep rules i := by
  rw [orderedReps, List.mem_flatMap]
  constructor
  · rintro ⟨c, -, hi⟩
    rw [List.mem_filter] at hi
    obtain ⟨hir, hb⟩ := hi
    rw [Bool.and_eq_true, decide_eq_true_eq, decide_eq_true_eq] at hb
    exact ⟨List.mem_range.mp hir, hb.1⟩
  · rintro ⟨hlt, hrep⟩
    refine ⟨(reachSet rules i).card, ?_, ?_⟩
    · rw [List.mem_range]
      have := Finset.card_le_card (reachSet_subset_range rules hlt)
      rw [Finset.card_range] at this
      omega
    · rw [List.mem_filter, Bool.and_eq_true, decide_eq_true_eq,
        decide_eq_true_eq]
      exact ⟨List.mem_range.mpr hlt, hrep, rfl⟩

theorem orderedReps_nodup (rules : List Rule) :
    (orderedReps rules).Nodup := by
  rw [orderedReps, List.nodup_flatMap]
  constructor
  · intro c hc
    exact (List.nodup_range rules.length).filter _
  · refine List.Pairwise.imp_of_mem ?_
      (List.pairwise_lt_range (rules.length + 1))
    intro a b ha hb hab
    intro x hxa hxb
    rw [List.mem_filter, Bool.and_eq_true, decide_eq_true_eq,
      decide_eq_true_eq] at hxa hxb
    exact absurd (hxa.2.2.symm.trans hxb.2.2) (Nat.ne_of_lt hab)

theorem exists_rep (rules : List Rule) {i : ℕ} (hi : i < rules.length) :
    ∃ m ∈ orderedReps rules, groupOf rules m = groupOf rules i := by
  have hne : (groupOf rules i).Nonempty := ⟨i, self_mem_groupOf rules i⟩
  have hmmem : (groupOf rules i).min' hne ∈ groupOf rules i :=
    Finset.min'_mem _ hne
  set m := (groupOf rules i).min' hne
  obtain ⟨hmr, him⟩ := (mem_groupOf rules i m).mp hmmem
  have hgeq : groupOf rules m = groupOf rules i :=
    (groupOf_congr rules hmr him).symm
  have hmlt : m < rules.length :=
    Finset.mem_range.mp (groupOf_subset_range rules hi hmmem)
  refine ⟨m, (mem_orderedReps rules m).mpr ⟨hmlt, ?_⟩, hgeq⟩
  intro j hj
  rw [hgeq] at hj
  exact Finset.min'_le _ j hj

theorem rep_eq_of_mutual (rules : List Rule) {a b : ℕ}
    (ha : isRep rules a) (hb : isRep rules b)
    (hba : b ∈ reachSet rules a) (hab : a ∈ reachSet rules b) : a = b := by
  have hg : groupOf rules a = groupOf rules b := groupOf_congr rules hba hab
  have h1 : a ≤ b := ha b (by rw [hg]; exact self_mem_groupOf rules b)
  have h2 : b ≤ a := hb a (by rw [← hg]; exact self_mem_groupOf rules a)
  omega

theorem orderedReps_card_sorted (rules : List Rule) :
    List.Pairwise
      (fun a b => (reachSet rules a).card ≤ (reachSet rules b).card)
      (orderedReps rules) := by
  rw [orderedReps, List.flatMap_def, List.pairwise_flatten]
  constructor
  · intro l hl
    rw [List.mem_map] at hl
    obtain ⟨c, -, rfl⟩ := hl
    refine List.Pairwise.imp_of_mem ?_
      (List.Pairwise.sublist (List.filter_sublist _)
        (List.pairwise_lt_range rules.length))
    intro a b ha hb _
    rw [List.mem_filter, Bool.and_eq_true, decide_eq_true_eq,
      decide_eq_true_eq] at ha hb
    rw [ha.2.2, hb.2.2]
  · rw [List.pairwise_map]
    refine List.Pairwise.imp_of_mem ?_
      (List.pairwise_lt_range (rules.length + 1))
    intro c1 c2 hc1 hc2 hlt x hx y hy
    rw [List.mem_filter, Bool.and_eq_true, decide_eq_true_eq,
      decide_eq_true_eq] at hx hy
    rw [hx.2.2, hy.2.2]
    exact Nat.le_of_lt hlt

theorem orderedReps_card_le (rules : List Rule) {k l : ℕ}
    (hk : k < (orderedReps rules).length)
    (hl : l < (orderedReps rules).length) (hkl : k < l) :
    (reachSet rules ((orderedReps rules).get ⟨k, hk⟩)).card
      ≤ (reachSet rules ((orderedReps rules).get ⟨l, hl⟩)).card :=
  List.pairwise_iff_get.mp (orderedReps_card_sorted rules) ⟨k, hk⟩ ⟨l, hl⟩ hkl

/-- Boolean edge-chain: from `a`, each element of the list is the target
of a dependency edge from its predecessor. -/
def chainB (rules : List Rule) : ℕ → List ℕ → Bool
  | _, [] => true
  | a, b :: m => decide (ruleEdge rules a b) && chainB rules b m

/-- A cycle of the dependency graph: a nonempty vertex list with an edge
from each vertex to the next and from the last vertex back to the first
(a one-element list whose vertex has a self-loop included). -/
def isCycleList (rules : List Rule) : List ℕ → Bool
  | [] => false
  | v :: rest => chainB rules v (rest ++ [v])

theorem chainB_reach (rules : List Rule) (m : List ℕ) :
    ∀ a, chainB rules a m = true → ∀ x ∈ a :: m, x ∈ reachSet rules a := by
  induction m with
  | nil =>
    intro a _ x hx
    rw [List.mem_singleton] at hx
    rw [hx]
    exact mem_reachSet_self rules a
  | cons b m ih =>
    intro a hc x hx
    rw [chainB, Bool.and_eq_true, decide_eq_true_eq] at hc
    obtain ⟨hab, hcm⟩ := hc
    have hbmem : b ∈ reachSet rules a :=
      reachSet_closed rules (mem_reachSet_self rules a) hab
    rcases List.mem_cons.mp hx with rfl | hx
    · exact mem_reachSet_self rules x
    · exact reachSet_trans rules hbmem (ih b hcm x hx)

theorem chainB_reach_last (rules : List Rule) (m : List ℕ) :
    ∀ a z, chainB rules a (m ++ [z]) = true →
      ∀ x ∈ a :: m, z ∈ reachSet rules x := by
  induction m with
  | nil =>
    intro a z hc x hx
    rw [List.mem_singleton] at hx
    rw [hx]
    rw [List.nil_append, chainB, Bool.and_eq_true, decide_eq_true_eq] at hc
    exact reachSet_closed rules (mem_reachSet_self rules a) hc.1
  | cons b m ih =>
    intro a z hc x hx
    rw [List.cons_append, chainB, Bool.and_eq_true, decide_eq_true_eq] at hc
    obtain ⟨hab, hcm⟩ := hc
    rcases List.mem_cons.mp hx with rfl | hx
    · have hzb : z ∈ reachSet rules b :=
        ih b z hcm b (List.mem_cons_self b m)
      have hba : b ∈ reachSet rules x :=
        reachSet_closed rules (mem_reachSet_self rules x) hab
      exact reachSet_trans rules hba hzb
    · exact ih b z hcm x hx

theorem chainB_lt (rules : List Rule) (m : List ℕ) :
    ∀ a, chainB rules a m = true → ∀ x ∈ m, x < rules.length := by
  induction m with
  | nil =>
    intro a _ x hx
    exact absurd hx (List.not_mem_nil x)
  | cons b m ih =>
    intro a hc x hx
    rw [chainB, Bool.and_eq_true, decide_eq_true_eq] at hc
    rcases List.mem_cons.mp hx with rfl | hx
    · exact ruleEdge_lt rules a x hc.1
    · exact ih b hc.2 x hx

/-- C6 (stratifier modelled from the spec; src/ leaves it unimplemented):
the groups `stratify` returns partition the full set of rule ids — every
id below the rule count lies in some returned group, every returned group
contains only such ids, and distinct returned groups are disjoint, so each
id occurs exactly once; every cycle of the dependency graph, self-loops
included, is contained within a single group; and the groups are ordered
so that a group never appears before any group it depends on: no rule of
an earlier group has a forward edge into a rule of a strictly later
group. -/
theorem stratify_partition_cycles_order (rules : List Rule) :
    ((∀ i < rules.length, ∃ g ∈ stratify rules, i ∈ g) ∧
      (∀ g ∈ stratify rules, g ⊆ Finset.range rules.length) ∧
      List.Pairwise Disjoint (stratify rules)) ∧
    (∀ l, isCycleList rules l = true →
      ∃ g ∈ stratify rules, ∀ x ∈ l, x ∈ g) ∧
    (∀ k l (hk : k < (stratify rules).length)
      (hl : l < (stratify rules).length), k < l →
      ∀ x ∈ (stratify rules).get ⟨k, hk⟩,
        ∀ y ∈ (stratify rules).get ⟨l, hl⟩, ¬ ruleEdge rules x y) := by
  refine ⟨⟨?_, ?_, ?_⟩, ?_, ?_⟩
  · -- coverage
    intro i hi
    obtain ⟨m, hm, hg⟩ := exists_rep rules hi
    exact ⟨groupOf rules m, List.mem_map_of_mem _ hm,
      by rw [hg]; exact self_mem_groupOf rules i⟩
  · -- groups stay inside the id range
    intro g hg
    rw [stratify, List.mem_map] at hg
    obtain ⟨m, hm, rfl⟩ := hg
    exact groupOf_subset_range rules ((mem_orderedReps rules m).mp hm).1
  · -- pairwise disjointness
    rw [stratify, List.pairwise_map]
    refine List.Pairwise.imp_of_mem ?_ (orderedReps_nodup rules)
    intro a b ha hb hne
    rw [Finset.disjoint_left]
    intro z hza hzb
    obtain ⟨hz1, hz2⟩ := (mem_groupOf rules a z).mp hza
    obtain ⟨hz3, hz4⟩ := (mem_groupOf rules b z).mp hzb
    have hba : b ∈ reachSet rules a := reachSet_trans rules hz1 hz4
    have hab : a ∈ reachSet rules b := reachSet_trans rules hz3 hz2
    exact hne (rep_eq_of_mutual rules ((mem_orderedReps rules a).mp ha).2
      ((mem_orderedReps rules b).mp hb).2 hba hab)
  · -- cycles stay within one group
    intro l hcyc
    cases l with
    | nil => simp [isCycleList] at hcyc
    | cons v rest =>
      rw [isCycleList] at hcyc
      have hvlt : v < rules.length :=
        chainB_lt rules (rest ++ [v]) v hcyc v
          (List.mem_append_right rest (List.mem_singleton_self v))
      obtain ⟨m, hm, hgeq⟩ := exists_rep rules hvlt
      refine ⟨groupOf rules m, List.mem_map_of_mem _ hm, ?_⟩
      intro x hx
      rw [hgeq, mem_groupOf]
      constructor
      · refine chainB_reach rules (rest ++ [v]) v hcyc x ?_
        rcases List.mem_cons.mp hx with rfl | hx
        · exact List.mem_cons_self _ _
        · exact List.mem_cons_of_mem _ (List.mem_append_left _ hx)
      · exact chainB_reach_last rules rest v v hcyc x hx
  · -- topological order of the groups
    intro k l hk hl hkl x hx y hy he
    have hk' : k < (orderedReps rules).length := by
      rw [stratify, List.length_map] at hk
      exact hk
    have hl' : l < (orderedReps rules).length := by
      rw [stratify, List.length_map] at hl
      exact hl
    have hga : (stratify rules).get ⟨k, hk⟩
        = groupOf rules ((orderedReps rules).get ⟨k, hk'⟩) :=
      List.get_map _
    have hgb : (stratify rules).get ⟨l, hl⟩
        = groupOf rules ((orderedReps rules).get ⟨l, hl'⟩) :=
      List.get_map _
    set a := (orderedReps rules).get ⟨k, hk'⟩ with hadef
    set b := (orderedReps rules).get ⟨l, hl'⟩ with hbdef
    rw [hga] at hx
    rw [hgb] at hy
    obtain ⟨hxa, hax⟩ := (mem_groupOf rules a x).mp hx
    obtain ⟨hyb, hby⟩ := (mem_groupOf rules b y).mp hy
    have hya : y ∈ reachSet rules a := reachSet_closed rules hxa he
    have hba : b ∈ reachSet rules a := reachSet_trans rules hya hby
    have hmema : a ∈ orderedReps rules := List.get_mem _ _ _
    have hmemb : b ∈ orderedReps rules := List.get_mem _ _ _
    have hne : a ≠ b := by
      intro haeq
      have := ((orderedReps_nodup rules).get_inj_iff).mp haeq
      rw [Fin.mk_eq_mk] at this
      omega
    have hnab : a ∉ reachSet rules b := by
      intro hab
      exact hne (rep_eq_of_mutual rules ((mem_orderedReps rules a).mp hmema).2
        ((mem_orderedReps rules b).mp hmemb).2 hba hab)
    have hsub : reachSet rules b ⊆ reachSet rules a :=
      reachSet_trans rules hba
    have hss : reachSet rules b ⊂ reachSet rules a :=
      (Finset.ssubset_iff_of_subset hsub).mpr
        ⟨a, mem_reachSet_self rules a, hnab⟩
    have hlt := Finset.card_lt_card hss
    have hle := orderedReps_card_le rules hk' hl' hkl
    rw [← hadef, ← hbdef] at hle
    omega

theorem stratify_partition_cycles_order_witness :
    ∃ g ∈ stratify exampleMutual, 0 ∈ g ∧ 1 ∈ g := by
  obtain ⟨g, hg, hall⟩ :=
    (stratify_partition_cycles_order exampleMutual).2.1 [0, 1] (by decide)
  exact ⟨g, hg, hall 0 (by decide), hall 1 (by decide)⟩
